import Mathlib

/-!
Verification of the core of a small replicated ledger (blockchain) written
in Python.  The data model (`Transaction.py`, `Block.py`), the chain engine
(`Blockchain.py`) and the node logic (`Node.py`: mempool, block ingestion,
mining, fork resolution) are shallowly embedded below.

Modelling conventions:
* SHA-256 is abstracted as a parameter `H : BlockHashData → String` applied
  to the exact record of fields that the source serializes (canonical JSON
  with sorted keys is injective on those records, so the record itself
  stands for the canonical byte string).
* ECDSA verification is abstracted as a parameter
  `verify : String → String → SigningData → Bool` (public-key text,
  hex signature, signing payload); exceptions raised by the cryptography
  library are absorbed into a `false` result, exactly as the source's
  `try/except` does.
* Python integers map to `Int`.  Timestamps are `time.time()` floats in the
  source; only zero/non-zero tests and equality of timestamps matter to the
  claims, so they are modelled as `Int`.
* Python `None` maps to `Option.none`; Python truthiness of a string is
  `s ≠ ""` and of a number is `t ≠ 0`.
* The dictionaries produced by `to_dict` are modelled as explicit record
  types (`TxDict`, `BlockDict`), with `Option` fields where `dict.get` is
  used by `from_dict`.
* Each node runs operations sequentially in this model (the source
  serializes chain/mempool mutation under locks).
-/

/-- Wire/dict form of a transaction (`Transaction.to_dict`).  `fee`,
`timestamp` and `signature` are read back with `dict.get` and may be
absent; `tx_id` is accessed unconditionally by `Transaction.from_dict`. -/
structure TxDict where
  tx_id : String
  sender_pubkey : String
  receiver_pubkey : String
  amount : Int
  fee : Option Int
  timestamp : Option Int
  signature : Option String
deriving DecidableEq

/-- A raw (non-`Transaction`) dictionary entry of a block's transaction
list, e.g. the genesis payload; modelled as a sorted key/value list. -/
def RawDict : Type := List (String × String)

instance : DecidableEq RawDict := by
  unfold RawDict
  infer_instance

/-- An entry of a block dict's `transactions` list: either a transaction
dict (one containing the key `tx_id`) or a raw dictionary. -/
inductive EntryDict where
  | txd : TxDict → EntryDict
  | raw : RawDict → EntryDict
deriving DecidableEq

/-- In-memory transaction object (`Transaction.__init__` fields). -/
structure Transaction where
  tx_id : String
  sender_pubkey : String
  receiver_pubkey : String
  amount : Int
  fee : Int
  timestamp : Int
  signature : Option String
deriving DecidableEq

/-- An element of `Block.transactions`: a `Transaction` object or a raw
dictionary (the source discriminates with `isinstance(tx, Transaction)`). -/
inductive TxEntry where
  | tx : Transaction → TxEntry
  | raw : RawDict → TxEntry
deriving DecidableEq

/-- In-memory block object (`Block.__init__` fields). -/
structure Block where
  index : Int
  timestamp : Int
  transactions : List TxEntry
  prev_hash : String
  nonce : Int
  hash : String
deriving DecidableEq

/-- The record hashed by `Block.generate_hash`: every field except `hash`,
with transactions rendered in dict form. -/
structure BlockHashData where
  index : Int
  timestamp : Int
  transactions : List EntryDict
  prev_hash : String
  nonce : Int
deriving DecidableEq

/-- The record signed by a transaction (`Transaction.get_signing_data`):
every field except `signature`. -/
structure SigningData where
  tx_id : String
  sender_pubkey : String
  receiver_pubkey : String
  amount : Int
  fee : Int
  timestamp : Int
deriving DecidableEq

/-- `Transaction.to_dict`. -/
def tx_to_dict (t : Transaction) : TxDict :=
  { tx_id := t.tx_id
    sender_pubkey := t.sender_pubkey
    receiver_pubkey := t.receiver_pubkey
    amount := t.amount
    fee := some t.fee
    timestamp := some t.timestamp
    signature := t.signature }

/-- `Transaction.get_signing_data` (the canonical signing payload). -/
def signing_data (t : Transaction) : SigningData :=
  { tx_id := t.tx_id
    sender_pubkey := t.sender_pubkey
    receiver_pubkey := t.receiver_pubkey
    amount := t.amount
    fee := t.fee
    timestamp := t.timestamp }

/-- Python truthiness default for an optional string argument:
`x if x else dflt`. -/
def truthyStringD (dflt : String) : Option String → String
  | none => dflt
  | some s => if s = "" then dflt else s

/-- Python truthiness default for an optional number argument:
`x if x else dflt`. -/
def truthyIntD (dflt : Int) : Option Int → Int
  | none => dflt
  | some t => if t = 0 then dflt else t

/-- `Transaction.__init__`.  `now` stands for the `time.time()` sample and
`freshId` for the `uuid.uuid4()` sample used when the corresponding
argument is falsy. -/
def tx_init (now : Int) (freshId : String) (sender receiver : String)
    (amount fee : Int) (txId : Option String) (signature : Option String)
    (timestamp : Option Int) : Transaction :=
  { tx_id := truthyStringD freshId txId
    sender_pubkey := sender
    receiver_pubkey := receiver
    amount := amount
    fee := fee
    timestamp := truthyIntD now timestamp
    signature := signature }

/-- `Transaction.from_dict`. -/
def tx_from_dict (now : Int) (freshId : String) (d : TxDict) : Transaction :=
  tx_init now freshId d.sender_pubkey d.receiver_pubkey d.amount
    (d.fee.getD 0) (some d.tx_id) d.signature d.timestamp

/-- `create_reward_transaction` (the miner's coinbase). -/
def create_reward_transaction (now : Int) (freshId : String)
    (miner_pubkey : String) (amount fee_sum : Int) : Transaction :=
  { tx_id := freshId
    sender_pubkey := "COINBASE"
    receiver_pubkey := miner_pubkey
    amount := amount + fee_sum
    fee := 0
    timestamp := now
    signature := some "COINBASE" }

/-- Rendering of one block-transaction entry into dict form, as done by
`Block.generate_hash` and `Block.to_dict`:
`tx.to_dict() if isinstance(tx, Transaction) else tx`. -/
def entry_to_dict : TxEntry → EntryDict
  | .tx t => .txd (tx_to_dict t)
  | .raw r => .raw r

/-- The data record hashed by `Block.generate_hash` (the `hash` field is
excluded). -/
def block_hash_data (b : Block) : BlockHashData :=
  { index := b.index
    timestamp := b.timestamp
    transactions := b.transactions.map entry_to_dict
    prev_hash := b.prev_hash
    nonce := b.nonce }

/-- `Block.generate_hash`, parametric in the hash function `H` (SHA-256
over the canonical JSON encoding in the source). -/
def generate_hash (H : BlockHashData → String) (b : Block) : String :=
  H (block_hash_data b)

/-- Wire/dict form of a block (`Block.to_dict`).  `timestamp`, `nonce` and
`hash` are read back with `dict.get`. -/
structure BlockDict where
  index : Int
  timestamp : Option Int
  transactions : List EntryDict
  prev_hash : String
  nonce : Option Int
  hash : Option String
deriving DecidableEq

/-- `Block.to_dict`. -/
def block_to_dict (b : Block) : BlockDict :=
  { index := b.index
    timestamp := some b.timestamp
    transactions := b.transactions.map entry_to_dict
    prev_hash := b.prev_hash
    nonce := some b.nonce
    hash := some b.hash }

/-- Reconstruction of one entry by `Block.from_dict`: dicts containing the
key `tx_id` become `Transaction` objects, other dicts are kept verbatim. -/
def entry_from_dict (now : Int) (freshId : String) : EntryDict → TxEntry
  | .txd d => .tx (tx_from_dict now freshId d)
  | .raw r => .raw r

/-- `Block.__init__`: timestamp defaults to `time.time()` only when the
argument is `None` (an `is None` test, not truthiness), and the hash is
computed when `hash_val` is `None`. -/
def block_init (H : BlockHashData → String) (now : Int) (index : Int)
    (transactions : List TxEntry) (prev_hash : String)
    (timestamp : Option Int) (nonce : Int) (hash_val : Option String) :
    Block :=
  let base : Block :=
    { index := index
      timestamp := timestamp.getD now
      transactions := transactions
      prev_hash := prev_hash
      nonce := nonce
      hash := "" }
  match hash_val with
  | some h => { base with hash := h }
  | none => { base with hash := generate_hash H base }

/-- `Block.from_dict`.  The source samples `time.time()`/`uuid.uuid4()` per
reconstructed transaction; a single sample is threaded here, which is
indistinguishable whenever the dict's fields are truthy (the only case the
claims rely on). -/
def block_from_dict (H : BlockHashData → String) (now : Int)
    (freshId : String) (d : BlockDict) : Block :=
  block_init H now d.index (d.transactions.map (entry_from_dict now freshId))
    d.prev_hash d.timestamp (d.nonce.getD 0) d.hash

/-! ## Blockchain engine (`Blockchain.py`) -/

/-- `Blockchain.difficulty`. -/
def difficulty : Nat := 4

/-- `"0" * Blockchain.difficulty`, the required hash prefix string. -/
def zeros : String := String.mk (List.replicate difficulty '0')

/-- `block_hash.startswith("0" * Blockchain.difficulty)`: the hash string
begins with `difficulty` zero characters (a structurally recursive prefix
test on the character lists, extensionally Python's `str.startswith`). -/
def hash_meets_difficulty (s : String) : Bool :=
  zeros.data.isPrefixOf s.data

/-- `Blockchain.BLOCK_SIZE_LIMIT`. -/
def BLOCK_SIZE_LIMIT : Nat := 3

/-- `Blockchain.MINING_REWARD`. -/
def MINING_REWARD : Int := 10

/-- The raw genesis payload `[{"type": "genesis", "message": "Genesis Block"}]`
(keys listed sorted, as the canonical JSON encoding orders them). -/
def genesisRaw : RawDict := [("message", "Genesis Block"), ("type", "genesis")]

/-- `Blockchain.create_genesis_block`: the fixed genesis block, with its
hash sealed by `generate_hash`. -/
def genesis_block (H : BlockHashData → String) : Block :=
  let g : Block :=
    { index := 0
      timestamp := 0
      transactions := [.raw genesisRaw]
      prev_hash := "0"
      nonce := 0
      hash := "" }
  { g with hash := generate_hash H g }

/-- `Blockchain.is_valid_block`: difficulty prefix and hash recomputation. -/
def is_valid_block (H : BlockHashData → String) (b : Block)
    (block_hash : String) : Bool :=
  hash_meets_difficulty block_hash && (generate_hash H b == block_hash)

/-- `Blockchain.add_block`.  Returns `none` when the chain is empty (the
source would raise an `IndexError` on `self.chain[-1]`; a live `Blockchain`
is never empty).  On success the block is stored with its `hash` field set
to `block_hash` and appended. -/
def add_block (H : BlockHashData → String) (chain : List Block) (b : Block)
    (block_hash : String) : Option (Bool × List Block) :=
  match chain.getLast? with
  | none => none
  | some tip =>
    if tip.hash ≠ b.prev_hash then some (false, chain)
    else if ¬ is_valid_block H b block_hash then some (false, chain)
    else some (true, chain ++ [{ b with hash := block_hash }])

/-- The per-link validation loop of `Blockchain.is_valid_chain`: each block
must point at its predecessor's hash, meet the difficulty prefix, and hash
to its own `hash` field. -/
def chain_links_ok (H : BlockHashData → String) : Block → List Block → Bool
  | _, [] => true
  | prev, c :: cs =>
    (c.prev_hash == prev.hash) && hash_meets_difficulty c.hash &&
      (generate_hash H c == c.hash) && chain_links_ok H c cs

/-- `Blockchain.is_valid_chain`: non-empty, first block has
`prev_hash == "0"`, and every later block is valid and linked. -/
def is_valid_chain (H : BlockHashData → String) (chain : List Block) : Bool :=
  match chain with
  | [] => false
  | g :: rest => (g.prev_hash == "0") && chain_links_ok H g rest

/-- `Blockchain.replace_chain`: adopt the received chain iff it is strictly
longer and valid; returns the success flag and the resulting chain. -/
def replace_chain (H : BlockHashData → String) (local_chain new_chain : List Block) :
    Bool × List Block :=
  if local_chain.length < new_chain.length ∧ is_valid_chain H new_chain = true then
    (true, new_chain)
  else
    (false, local_chain)

/-- The `Transaction` objects of a block's transaction list, in order (the
`isinstance(tx, Transaction)` filter used throughout the source). -/
def blockTxs (b : Block) : List Transaction :=
  b.transactions.filterMap fun e =>
    match e with
    | .tx t => some t
    | .raw _ => none

/-- `tx_id` projection of a transaction list. -/
def txIds (l : List Transaction) : List String := l.map Transaction.tx_id

/-- All transaction ids found in a chain (every block, every
`Transaction` entry). -/
def chainTxIds (chain : List Block) : List String :=
  chain.flatMap fun b => txIds (blockTxs b)

/-- `Blockchain.get_balance`: start at 100; for every non-genesis block,
debit `amount + fee` from the sender and credit `amount` to the
receiver. -/
def get_balance (chain : List Block) (pubkey : String) : Int :=
  (chain.drop 1).foldl
    (fun bal b =>
      (blockTxs b).foldl
        (fun bal2 t =>
          let bal3 := if t.sender_pubkey = pubkey then bal2 - (t.amount + t.fee) else bal2
          if t.receiver_pubkey = pubkey then bal3 + t.amount else bal3)
        bal)
    100

/-- `Blockchain.get_balance_with_mempool`: additionally debit pending
outgoing transactions. -/
def get_balance_with_mempool (chain : List Block) (mempool : List Transaction)
    (pubkey : String) : Int :=
  mempool.foldl
    (fun bal t => if t.sender_pubkey = pubkey then bal - (t.amount + t.fee) else bal)
    (get_balance chain pubkey)

/-! ## Node logic (`Node.py`) -/

/-- A node's mutable state: its blockchain and its mempool, plus the
immutable public-key string of its keypair.  Networking, persistence and
logging are external effects with no bearing on this state. -/
structure NodeState where
  chain : List Block
  mempool : List Transaction
  self_pk : String
deriving DecidableEq

/-- The signature check embedded in `Node.verify_transaction` for a
non-coinbase transaction: the signature must be truthy and ECDSA
verification of it against the signing payload and the sender key must
succeed (`verify` absorbs the library's exceptions as `false`). -/
def sig_ok (verify : String → String → SigningData → Bool)
    (t : Transaction) : Bool :=
  match t.signature with
  | none => false
  | some s => (s != "") && verify t.sender_pubkey s (signing_data t)

/-- `Node.verify_transaction`: coinbase transactions are accepted outright;
otherwise the signature must verify and the sender's effective balance
(chain plus mempool-pending outflows) must cover `amount + fee`. -/
def verify_transaction (verify : String → String → SigningData → Bool)
    (chain : List Block) (mempool : List Transaction) (t : Transaction) : Bool :=
  if t.sender_pubkey = "COINBASE" then true
  else if ¬ sig_ok verify t then false
  else if get_balance_with_mempool chain mempool t.sender_pubkey < t.amount + t.fee
    then false
  else true

/-- `Node.add_transaction`: reject ids already in the chain, then verify,
then append to the mempool unless already present (mempool membership is
`Transaction.__eq__`, i.e. equality of `tx_id`). -/
def add_transaction (verify : String → String → SigningData → Bool)
    (st : NodeState) (t : Transaction) : Bool × NodeState :=
  if t.tx_id ∈ chainTxIds st.chain then (false, st)
  else if ¬ verify_transaction verify st.chain st.mempool t then (false, st)
  else if t.tx_id ∈ txIds st.mempool then (false, st)
  else (true, { st with mempool := st.mempool ++ [t] })

/-- Removal of the first mempool transaction with the given id, if any:
`if tx in self.mempool: self.mempool.remove(tx)` under `Transaction.__eq__`
(equality of `tx_id`). -/
def removeById (mempool : List Transaction) (i : String) : List Transaction :=
  match mempool with
  | [] => []
  | t :: ts => if t.tx_id = i then ts else t :: removeById ts i

/-- The removal loop over a block's transactions run by `receive_block`
and `mine`. -/
def removeAllIds (mempool : List Transaction) (ids : List String) :
    List Transaction :=
  ids.foldl removeById mempool

/-- `Node.receive_block`: try `add_block` with the block's own hash; on
success drop the block's transactions from the mempool (the failure path
only triggers a network pull-sync, which does not change this state). -/
def receive_block (H : BlockHashData → String) (st : NodeState) (b : Block) :
    Bool × NodeState :=
  match add_block H st.chain b b.hash with
  | none => (false, st)
  | some (false, _) => (false, st)
  | some (true, chain2) =>
    (true, { st with chain := chain2,
                     mempool := removeAllIds st.mempool (txIds (blockTxs b)) })

/-- Stable insertion into a fee-descending list (ties keep the earlier
element first), the order produced by
`sorted(self.mempool, key=lambda tx: tx.fee, reverse=True)`. -/
def insertByFee (t : Transaction) : List Transaction → List Transaction
  | [] => [t]
  | y :: ys => if y.fee ≤ t.fee then t :: y :: ys else y :: insertByFee t ys

/-- Stable sort of the mempool by descending fee (Python's `sorted` is a
stable sort). -/
def sortByFeeDesc : List Transaction → List Transaction
  | [] => []
  | t :: ts => insertByFee t (sortByFeeDesc ts)

/-- `Node.pick_transactions`: the `limit` highest-fee mempool entries. -/
def pick_transactions (mempool : List Transaction) (limit : Nat) :
    List Transaction :=
  (sortByFeeDesc mempool).take limit

/-- `Node.mine`.  `now` stands for the `time.time()` samples, `freshId` for
the coinbase's `uuid.uuid4()`, and `nonce` for the value found by
`proof_of_work` (whose result always re-passes the checks in `add_block`;
an arbitrary nonce parameter makes the model a superset of the real runs).
Returns `none` when the chain is empty (`last_block` would raise). -/
def mine (H : BlockHashData → String) (st : NodeState) (now : Int)
    (freshId : String) (nonce : Int) : Option NodeState :=
  if st.mempool = [] then some st
  else
    let picks := pick_transactions st.mempool (BLOCK_SIZE_LIMIT - 1)
    if picks = [] then some st
    else
      let total_fees := (picks.map Transaction.fee).sum
      let reward := create_reward_transaction now freshId st.self_pk MINING_REWARD total_fees
      match st.chain.getLast? with
      | none => none
      | some tip =>
        let base : Block :=
          { index := tip.index + 1
            timestamp := now
            transactions := .tx reward :: picks.map .tx
            prev_hash := tip.hash
            nonce := nonce
            hash := "" }
        let block_hash := generate_hash H base
        let sealed := { base with hash := block_hash }
        match add_block H st.chain sealed block_hash with
        | some (true, chain2) =>
          some { st with chain := chain2,
                         mempool := removeAllIds st.mempool (txIds picks) }
        | _ => some st

/-- Last-occurrence lookup in a transaction list, the value an id maps to
after the `old_tx_map[tx.tx_id] = tx` insertion loop of
`handle_chain_response`. -/
def lookupLastTx (l : List Transaction) (i : String) : Option Transaction :=
  l.reverse.find? fun t => t.tx_id == i

/-- Keep-first deduplication with an accumulator of already-seen keys. -/
def dedupAcc : List String → List String → List String
  | _, [] => []
  | seen, x :: xs =>
    if x ∈ seen then dedupAcc seen xs else x :: dedupAcc (x :: seen) xs

/-- First-occurrence deduplication of a key list.  The source iterates a
Python `set` (unspecified order); membership is all the claims depend on. -/
def dedupFirst (l : List String) : List String := dedupAcc [] l

/-- One iteration of the orphan re-injection loop of
`handle_chain_response`: look the id up in the old-chain map, re-validate
it against the new chain and the current mempool, and append it unless
already present. -/
def orphanStep (verify : String → String → SigningData → Bool)
    (chain2 : List Block) (oldTxs : List Transaction)
    (mempool : List Transaction) (i : String) : List Transaction :=
  match lookupLastTx oldTxs i with
  | none => mempool
  | some t =>
    if ¬ verify_transaction verify chain2 mempool t then mempool
    else if t.tx_id ∈ txIds mempool then mempool
    else mempool ++ [t]

/-- `Node.handle_chain_response` on an already-reconstructed chain:
snapshot the old chain's transactions, attempt `replace_chain`, and on
success purge mempool transactions now in the adopted chain's non-genesis
blocks, then re-inject old-chain transactions absent from them (each
re-validated against the new chain and the growing mempool). -/
def handle_chain_response (H : BlockHashData → String)
    (verify : String → String → SigningData → Bool)
    (st : NodeState) (new_chain : List Block) : NodeState :=
  let oldTxs := (st.chain.drop 1).flatMap blockTxs
  let newIds := chainTxIds (new_chain.drop 1)
  let res := replace_chain H st.chain new_chain
  if res.1 then
    let pool1 := st.mempool.filter fun t => ¬ t.tx_id ∈ newIds
    let orphanIds := (dedupFirst (txIds oldTxs)).filter fun i => ¬ i ∈ newIds
    let pool2 := orphanIds.foldl (orphanStep verify res.2 oldTxs) pool1
    { st with chain := res.2, mempool := pool2 }
  else st

/-- The states a node can reach from its freshly constructed state
(genesis-only chain, empty mempool) through the operations that mutate the
chain or the mempool: transaction gossip ingest, block ingest, mining, and
fork resolution.  `H` and `verify` abstract SHA-256 and ECDSA; inbound
transactions, blocks and chains are arbitrary (they are reconstructed from
attacker-controlled wire bytes).  The miner's coinbase id is assumed fresh
for the mempool, as a `uuid4` sample is. -/
inductive Reachable (H : BlockHashData → String)
    (verify : String → String → SigningData → Bool) : NodeState → Prop where
  | init (pk : String) :
      Reachable H verify { chain := [genesis_block H], mempool := [], self_pk := pk }
  | addTx (s : NodeState) (t : Transaction) :
      Reachable H verify s → Reachable H verify (add_transaction verify s t).2
  | recvBlock (s : NodeState) (b : Block) :
      Reachable H verify s → Reachable H verify (receive_block H s b).2
  | mineStep (s : NodeState) (now : Int) (freshId : String) (nonce : Int)
      (s2 : NodeState) :
      Reachable H verify s → freshId ∉ txIds s.mempool →
      mine H s now freshId nonce = some s2 → Reachable H verify s2
  | chainResp (s : NodeState) (c : List Block) :
      Reachable H verify s → Reachable H verify (handle_chain_response H verify s c)

/-! ## Spec-side definitions and concrete instances -/

/-- Per-transaction balance change of `pk`, following the spec's words for
`get_balance`: credit `amount` when `pk` is the receiver, debit
`amount + fee` when `pk` is the sender. -/
def tx_delta (pk : String) (t : Transaction) : Int :=
  (if t.receiver_pubkey = pk then t.amount else 0) -
  (if t.sender_pubkey = pk then t.amount + t.fee else 0)

/-- Modelled from the spec's words (claim C8): 100 plus the summed deltas
of every transaction of every non-genesis block. -/
def balance_spec (chain : List Block) (pk : String) : Int :=
  100 + (((chain.drop 1).flatMap blockTxs).map (tx_delta pk)).sum

/-- Truthiness of the fields that `Transaction.__init__` re-stamps: a block
transaction entry survives a dict round trip unchanged exactly when its
timestamp and id are truthy (raw entries always survive). -/
def entry_truthy : TxEntry → Prop
  | .tx t => t.timestamp ≠ 0 ∧ t.tx_id ≠ ""
  | .raw _ => True

instance : DecidablePred entry_truthy := by
  intro e
  unfold entry_truthy
  cases e <;> infer_instance

/-- Every non-coinbase transaction of the block carries a verifying
signature. -/
def block_sigs_ok (verify : String → String → SigningData → Bool)
    (b : Block) : Prop :=
  ∀ t ∈ blockTxs b, t.sender_pubkey ≠ "COINBASE" → sig_ok verify t = true

/-- Every non-coinbase transaction of every block of the chain carries a
verifying signature. -/
def chain_sigs_ok (verify : String → String → SigningData → Bool)
    (c : List Block) : Prop :=
  ∀ b ∈ c, block_sigs_ok verify b

/-- Every non-coinbase transaction of the pool carries a verifying
signature. -/
def pool_sigs_ok (verify : String → String → SigningData → Bool)
    (l : List Transaction) : Prop :=
  ∀ t ∈ l, t.sender_pubkey ≠ "COINBASE" → sig_ok verify t = true

/-- Reachability when the network-ingested inputs are signature-clean: like
`Reachable`, but every block accepted through `receive_block` and every
chain offered to `handle_chain_response` contains only signature-valid
non-coinbase transactions.  The source checks no signatures on those two
paths, so this hypothesis is exactly what the amended claim C3 needs. -/
inductive ReachableChecked (H : BlockHashData → String)
    (verify : String → String → SigningData → Bool) : NodeState → Prop where
  | init (pk : String) :
      ReachableChecked H verify
        { chain := [genesis_block H], mempool := [], self_pk := pk }
  | addTx (s : NodeState) (t : Transaction) :
      ReachableChecked H verify s →
      ReachableChecked H verify (add_transaction verify s t).2
  | recvBlock (s : NodeState) (b : Block) :
      ReachableChecked H verify s → block_sigs_ok verify b →
      ReachableChecked H verify (receive_block H s b).2
  | mineStep (s : NodeState) (now : Int) (freshId : String) (nonce : Int)
      (s2 : NodeState) :
      ReachableChecked H verify s → freshId ∉ txIds s.mempool →
      mine H s now freshId nonce = some s2 → ReachableChecked H verify s2
  | chainResp (s : NodeState) (c : List Block) :
      ReachableChecked H verify s → chain_sigs_ok verify c →
      ReachableChecked H verify (handle_chain_response H verify s c)

/-! Concrete instances for witnesses and counterexamples.  `hashK` is a
degenerate hash function under which proof-of-work is trivial; the
behaviours exhibited with it are structural (none of the refuted checks
consults the hash function at all), and with real SHA-256 at difficulty 4
the same inputs are obtained by mining a few handfuls of nonces. -/

/-- A hash function that maps everything to the difficulty prefix. -/
def hashK : BlockHashData → String := fun _ => zeros

/-- An ECDSA verifier that rejects everything (no signature in the
counterexamples is genuine). -/
def verifyF : String → String → SigningData → Bool := fun _ _ _ => false

/-- An ECDSA verifier that accepts everything. -/
def verifyT : String → String → SigningData → Bool := fun _ _ _ => true

/-- A freshly constructed node (genesis-only chain, empty mempool). -/
def st0 : NodeState :=
  { chain := [genesis_block hashK], mempool := [], self_pk := "pk" }

/-- A user transaction whose signature no verifier accepts. -/
def badTx : Transaction :=
  { tx_id := "b1", sender_pubkey := "alice", receiver_pubkey := "bob",
    amount := 1, fee := 0, timestamp := 1, signature := some "deadbeef" }

/-- A block carrying `badTx`, linked to genesis and sealed under `hashK`. -/
def Bbad : Block :=
  { index := 1, timestamp := 1, transactions := [.tx badTx],
    prev_hash := zeros, nonce := 0, hash := zeros }

/-- A non-canonical first block: `prev_hash = "0"` but index 5. -/
def gBad : Block :=
  { index := 5, timestamp := 0, transactions := [], prev_hash := "0",
    nonce := 0, hash := zeros }

/-- An empty linked block used to extend counterexample chains. -/
def bLink : Block :=
  { index := 1, timestamp := 0, transactions := [], prev_hash := zeros,
    nonce := 0, hash := zeros }

/-- A well-formed signed user transaction. -/
def tx1 : Transaction :=
  { tx_id := "t1", sender_pubkey := "alice", receiver_pubkey := "bob",
    amount := 1, fee := 0, timestamp := 1, signature := some "sg" }

/-- A first block with `prev_hash = "0"` that hides `tx1`. -/
def gX : Block :=
  { index := 0, timestamp := 0, transactions := [.tx tx1], prev_hash := "0",
    nonce := 0, hash := zeros }

/-- A coinbase transaction (as the miner would build). -/
def coinTx : Transaction :=
  { tx_id := "c1", sender_pubkey := "COINBASE", receiver_pubkey := "miner",
    amount := 11, fee := 0, timestamp := 1, signature := some "COINBASE" }

/-- A mined block carrying the coinbase `coinTx`, linked to genesis. -/
def Bcoin : Block :=
  { index := 1, timestamp := 1, transactions := [.tx coinTx],
    prev_hash := (genesis_block hashK).hash, nonce := 0, hash := zeros }

/-- A node that has accepted `Bcoin` (so its chain holds a coinbase). -/
def stC : NodeState :=
  { chain := [genesis_block hashK, Bcoin], mempool := [], self_pk := "pk" }

/-- An empty first block with `prev_hash = "0"`. -/
def g2 : Block :=
  { index := 0, timestamp := 0, transactions := [], prev_hash := "0",
    nonce := 0, hash := zeros }

/-- A valid length-3 chain (under `hashK`) that contains no transactions,
so every old transaction is orphaned by adopting it. -/
def newC : List Block := [g2, bLink, bLink]

/-- A coinbase transaction as it would arrive over the `transaction`
gossip path. -/
def cbGossip : Transaction :=
  { tx_id := "cb", sender_pubkey := "COINBASE", receiver_pubkey := "eve",
    amount := 50, fee := 0, timestamp := 1, signature := none }

/-- The chain of `stC`, used for the balance counterexample. -/
def chain8 : List Block := [genesis_block hashK, Bcoin]

/-- A transaction with a falsy (zero) timestamp. -/
def tz : Transaction :=
  { tx_id := "z", sender_pubkey := "a", receiver_pubkey := "b",
    amount := 1, fee := 0, timestamp := 0, signature := some "s" }

/-- The hashless core of a block containing `tz`. -/
def bzBase : Block :=
  { index := 1, timestamp := 3, transactions := [.tx tz], prev_hash := "p",
    nonce := 0, hash := "" }

/-- A hash function that distinguishes `bzBase`'s hash data from every
other input (standing in for SHA-256's injectivity on these two inputs). -/
def hashC : BlockHashData → String :=
  fun d => if d = block_hash_data bzBase then "X" else "Y"

/-- `bzBase` sealed under `hashC`. -/
def bz : Block := { bzBase with hash := "X" }

/-! ## Helper lemmas -/

theorem getLast?_some_ne_nil {l : List Block} {tip : Block}
    (h : l.getLast? = some tip) : l ≠ [] := by
  intro h2
  subst h2
  simp at h

theorem add_block_none {H : BlockHashData → String} {c : List Block}
    {b : Block} {bh : String} (h : add_block H c b bh = none) : c = [] := by
  unfold add_block at h
  cases hl : c.getLast? with
  | none => exact List.getLast?_eq_none_iff.1 hl
  | some tip =>
    rw [hl] at h
    by_cases h1 : tip.hash = b.prev_hash <;>
      by_cases h2 : is_valid_block H b bh = true <;> simp [h1, h2] at h

theorem add_block_true {H : BlockHashData → String} {c c2 : List Block}
    {b : Block} {bh : String} (h : add_block H c b bh = some (true, c2)) :
    c2 = c ++ [{ b with hash := bh }] ∧ c ≠ [] ∧
      is_valid_block H b bh = true := by
  unfold add_block at h
  cases hl : c.getLast? with
  | none => rw [hl] at h; simp at h
  | some tip =>
    rw [hl] at h
    by_cases h1 : tip.hash = b.prev_hash <;>
      by_cases h2 : is_valid_block H b bh = true <;> simp [h1, h2] at h
    exact ⟨h.symm, getLast?_some_ne_nil hl, h2⟩

theorem add_block_false {H : BlockHashData → String} {c c2 : List Block}
    {b : Block} {bh : String} (h : add_block H c b bh = some (false, c2)) :
    c2 = c := by
  unfold add_block at h
  cases hl : c.getLast? with
  | none => rw [hl] at h; simp at h
  | some tip =>
    rw [hl] at h
    by_cases h1 : tip.hash = b.prev_hash <;>
      by_cases h2 : is_valid_block H b bh = true <;> simp [h1, h2] at h <;>
      exact h.symm

theorem replace_chain_true {H : BlockHashData → String}
    {l c : List Block} (h : (replace_chain H l c).1 = true) :
    (replace_chain H l c).2 = c ∧ is_valid_chain H c = true ∧
      l.length < c.length := by
  unfold replace_chain at *
  split_ifs at * with h1
  exact ⟨rfl, h1.2, h1.1⟩

/-! ## Claims C1 and C2 -/

/-- Claim C1: `replace_chain(c)` replaces the local chain with `c` and
returns true exactly when `c` is strictly longer than the local chain and
`is_valid_chain(c)` holds; otherwise (in particular on a length tie) the
incumbent chain is kept and false is returned. -/
theorem claim_C1 (H : BlockHashData → String) (local_chain new_chain : List Block) :
    ((replace_chain H local_chain new_chain).1 = true ↔
      (local_chain.length < new_chain.length ∧ is_valid_chain H new_chain = true)) ∧
    ((replace_chain H local_chain new_chain).1 = true →
      (replace_chain H local_chain new_chain).2 = new_chain) ∧
    ((replace_chain H local_chain new_chain).1 = false →
      (replace_chain H local_chain new_chain).2 = local_chain) ∧
    (new_chain.length = local_chain.length →
      replace_chain H local_chain new_chain = (false, local_chain)) := by
  unfold replace_chain
  split_ifs with h1
  · refine ⟨by simp [h1], by simp, by simp, ?_⟩
    intro hlen
    exact absurd h1.1 (by omega)
  · exact ⟨by simpa using h1, by simp, by simp, fun _ => rfl⟩

/-- Witness for C1: on a length tie the incumbent is kept and false is
returned. -/
theorem claim_C1_witness :
    replace_chain hashK [genesis_block hashK] [genesis_block hashK] =
      (false, [genesis_block hashK]) :=
  (claim_C1 hashK [genesis_block hashK] [genesis_block hashK]).2.2.2 rfl

/-- Claim C2: on a non-empty chain, `add_block(b)` (invoked with
`block_hash = b.hash` as `receive_block` does) never raises, appends `b`
and returns true exactly when `b.prev_hash` matches the tip's hash, `b.hash`
has `difficulty` leading zero digits, and `b.hash` recomputes from `b`'s
contents without the hash field; on failure the chain is unchanged. -/
theorem claim_C2 (H : BlockHashData → String) (chain : List Block) (b : Block)
    (hne : chain ≠ []) :
    ∃ tip ok chain2, chain.getLast? = some tip ∧
      add_block H chain b b.hash = some (ok, chain2) ∧
      (ok = true ↔ (b.prev_hash = tip.hash ∧ hash_meets_difficulty b.hash = true ∧
        generate_hash H b = b.hash)) ∧
      (ok = true → chain2 = chain ++ [b]) ∧
      (ok = false → chain2 = chain) := by
  cases hl : chain.getLast? with
  | none => exact absurd (List.getLast?_eq_none_iff.1 hl) hne
  | some tip =>
    unfold add_block
    rw [hl]
    by_cases h1 : tip.hash = b.prev_hash <;>
      by_cases h2 : is_valid_block H b b.hash = true <;> simp only [h1, h2]
    · refine ⟨tip, true, chain ++ [{ b with hash := b.hash }], rfl, by simp, ?_, ?_, by simp⟩
      · unfold is_valid_block at h2
        simp only [Bool.and_eq_true, beq_iff_eq] at h2
        exact ⟨fun _ => ⟨h1.symm, h2.1, h2.2⟩, fun _ => rfl⟩
      · intro _
        rfl
    · refine ⟨tip, false, chain, rfl, by simp, ?_, by simp, fun _ => rfl⟩
      unfold is_valid_block at h2
      simp only [Bool.and_eq_true, beq_iff_eq] at h2
      constructor
      · intro hf
        exact absurd hf (by simp)
      · intro hc
        exact absurd ⟨hc.2.1, hc.2.2⟩ h2
    · refine ⟨tip, false, chain, rfl, by simp [h1], ?_, by simp, fun _ => rfl⟩
      constructor
      · intro hf
        exact absurd hf (by simp)
      · intro hc
        exact absurd hc.1.symm h1
    · refine ⟨tip, false, chain, rfl, by simp [h1], ?_, by simp, fun _ => rfl⟩
      constructor
      · intro hf
        exact absurd hf (by simp)
      · intro hc
        exact absurd hc.1.symm h1

/-- Witness for C2: adding the sealed linked block `Bbad` to the fresh
genesis chain. -/
theorem claim_C2_witness :
    ∃ tip ok chain2, [genesis_block hashK].getLast? = some tip ∧
      add_block hashK [genesis_block hashK] Bbad Bbad.hash = some (ok, chain2) ∧
      (ok = true ↔ (Bbad.prev_hash = tip.hash ∧ hash_meets_difficulty Bbad.hash = true ∧
        generate_hash hashK Bbad = Bbad.hash)) ∧
      (ok = true → chain2 = [genesis_block hashK] ++ [Bbad]) ∧
      (ok = false → chain2 = [genesis_block hashK]) :=
  claim_C2 hashK [genesis_block hashK] Bbad (by simp)

/-! ## Claim C8: balance accounting -/

theorem tx_foldl_delta (pk : String) (l : List Transaction) : ∀ bal : Int,
    l.foldl
      (fun bal2 t =>
        let bal3 := if t.sender_pubkey = pk then bal2 - (t.amount + t.fee) else bal2
        if t.receiver_pubkey = pk then bal3 + t.amount else bal3)
      bal = bal + (l.map (tx_delta pk)).sum := by
  induction l with
  | nil => intro bal; simp
  | cons t ts ih =>
    intro bal
    simp only [List.foldl_cons, List.map_cons, List.sum_cons]
    rw [ih]
    unfold tx_delta
    split_ifs <;> ring

theorem block_foldl_delta (pk : String) (bs : List Block) : ∀ bal : Int,
    bs.foldl
      (fun bal b =>
        (blockTxs b).foldl
          (fun bal2 t =>
            let bal3 := if t.sender_pubkey = pk then bal2 - (t.amount + t.fee) else bal2
            if t.receiver_pubkey = pk then bal3 + t.amount else bal3)
          bal)
      bal = bal + ((bs.flatMap blockTxs).map (tx_delta pk)).sum := by
  induction bs with
  | nil => intro bal; simp
  | cons b bs ih =>
    intro bal
    simp only [List.foldl_cons, List.flatMap_cons, List.map_append, List.sum_append]
    rw [tx_foldl_delta, ih]
    ring

/-- Claim C8 (amended): `get_balance(pk)` is 100 plus, over every
transaction of every non-genesis block, `amount` credited when `pk` is the
receiver and `amount + fee` debited when `pk` is the sender.  The debit
rule special-cases no key: it applies verbatim to any `pk`, including the
literal sentinel string `COINBASE`, which is therefore debited by every
coinbase transaction when queried. -/
theorem claim_C8 (chain : List Block) (pk : String) :
    get_balance chain pk = balance_spec chain pk := by
  unfold get_balance balance_spec
  rw [block_foldl_delta]

/-- Counterexample for C8 as stated: on a chain whose only transaction is
the coinbase `coinTx` (amount 11, fee 0, receiver distinct from the
sentinel), `get_balance("COINBASE")` is debited down to 89 rather than
staying at the untouched 100 the claim asserts. -/
theorem claim_C8_counterexample :
    get_balance chain8 "COINBASE" = 100 - (coinTx.amount + coinTx.fee) ∧
      get_balance chain8 "COINBASE" ≠ 100 := by
  constructor
  · decide
  · decide

/-! ## Claims C10 and C9: dict round trips -/

/-- Claim C10: `Transaction.from_dict` preserves a non-zero timestamp (and
then the signing payload of a dict round trip is unchanged), replaces a
zero timestamp with the current time — so the signing payload of a
zero-timestamped transaction changes under any non-zero clock — and
replaces an empty (falsy) `tx_id` with the fresh identifier. -/
theorem claim_C10 :
    (∀ (now : Int) (freshId : String) (d : TxDict) (t : Int),
      d.timestamp = some t → t ≠ 0 → (tx_from_dict now freshId d).timestamp = t) ∧
    (∀ (now : Int) (freshId : String) (t : Transaction),
      t.timestamp ≠ 0 → t.tx_id ≠ "" →
      signing_data (tx_from_dict now freshId (tx_to_dict t)) = signing_data t) ∧
    (∀ (now : Int) (freshId : String) (d : TxDict),
      d.timestamp = some 0 → (tx_from_dict now freshId d).timestamp = now) ∧
    (∀ (now : Int) (freshId : String) (t : Transaction),
      t.timestamp = 0 → now ≠ 0 →
      signing_data (tx_from_dict now freshId (tx_to_dict t)) ≠ signing_data t) ∧
    (∀ (now : Int) (freshId : String) (d : TxDict),
      d.tx_id = "" → (tx_from_dict now freshId d).tx_id = freshId) := by
  refine ⟨?_, ?_, ?_, ?_, ?_⟩
  · intro now freshId d t hd ht
    simp [tx_from_dict, tx_init, truthyIntD, hd, ht]
  · intro now freshId t ht hid
    simp [tx_from_dict, tx_init, tx_to_dict, signing_data, truthyIntD,
      truthyStringD, ht, hid]
  · intro now freshId d hd
    simp [tx_from_dict, tx_init, truthyIntD, hd]
  · intro now freshId t ht hnow heq
    have h2 := congrArg SigningData.timestamp heq
    simp [tx_from_dict, tx_init, tx_to_dict, signing_data, truthyIntD, ht] at h2
    exact hnow h2
  · intro now freshId d hd
    simp [tx_from_dict, tx_init, truthyStringD, hd]

/-- Witness for C10: a truthy transaction (`tx1`, timestamp 1) round-trips
with payload intact; the zero-timestamped `tz` is re-stamped to the clock
sample 5 and its payload changes. -/
theorem claim_C10_witness :
    (tx_from_dict 5 "f" (tx_to_dict tx1)).timestamp = 1 ∧
    signing_data (tx_from_dict 5 "f" (tx_to_dict tx1)) = signing_data tx1 ∧
    (tx_from_dict 5 "f" (tx_to_dict tz)).timestamp = 5 ∧
    signing_data (tx_from_dict 5 "f" (tx_to_dict tz)) ≠ signing_data tz :=
  ⟨claim_C10.1 5 "f" (tx_to_dict tx1) 1 rfl (by decide),
   claim_C10.2.1 5 "f" tx1 (by decide) (by decide),
   claim_C10.2.2.1 5 "f" (tx_to_dict tz) rfl,
   claim_C10.2.2.2.1 5 "f" tz rfl (by decide)⟩

/-- A transaction dict round trip is the identity whenever the timestamp
and the id are truthy. -/
theorem tx_roundtrip (now : Int) (freshId : String) (t : Transaction)
    (ht : t.timestamp ≠ 0) (hid : t.tx_id ≠ "") :
    tx_from_dict now freshId (tx_to_dict t) = t := by
  simp [tx_from_dict, tx_init, tx_to_dict, truthyIntD, truthyStringD, ht, hid]

/-- Claim C9 (amended): for a sealed block all of whose `Transaction`
entries have truthy (non-zero) timestamps and non-empty ids, the dict
round trip is the identity and recomputing the canonical hash of the
reconstruction yields `b.hash`; a signed transaction with truthy timestamp
and id likewise round-trips identically (so its signature still verifies
against the reconstruction's signing payload).  Without the truthiness
hypotheses `Transaction.__init__` re-stamps the fields and the round trip
changes the hashed and signed content (see C10 and the counterexample). -/
theorem claim_C9 :
    (∀ (H : BlockHashData → String) (now : Int) (freshId : String) (b : Block),
      (∀ e ∈ b.transactions, entry_truthy e) →
      block_from_dict H now freshId (block_to_dict b) = b) ∧
    (∀ (H : BlockHashData → String) (now : Int) (freshId : String) (b : Block),
      b.hash = generate_hash H b →
      (∀ e ∈ b.transactions, entry_truthy e) →
      generate_hash H (block_from_dict H now freshId (block_to_dict b)) = b.hash) ∧
    (∀ (now : Int) (freshId : String) (t : Transaction),
      t.timestamp ≠ 0 → t.tx_id ≠ "" →
      tx_from_dict now freshId (tx_to_dict t) = t) := by
  have hblock : ∀ (H : BlockHashData → String) (now : Int) (freshId : String)
      (b : Block), (∀ e ∈ b.transactions, entry_truthy e) →
      block_from_dict H now freshId (block_to_dict b) = b := by
    intro H now freshId b htr
    unfold block_from_dict block_to_dict block_init
    simp only [Option.getD_some]
    have hmap : b.transactions.map
        (fun e => entry_from_dict now freshId (entry_to_dict e)) = b.transactions := by
      have : ∀ e ∈ b.transactions, entry_from_dict now freshId (entry_to_dict e) = e := by
        intro e he
        cases e with
        | raw r => rfl
        | tx t =>
          have := htr _ he
          unfold entry_truthy at this
          simp only [entry_to_dict, entry_from_dict]
          rw [tx_roundtrip now freshId t this.1 this.2]
      calc b.transactions.map (fun e => entry_from_dict now freshId (entry_to_dict e))
          = b.transactions.map id := List.map_congr_left this
        _ = b.transactions := List.map_id b.transactions
    rw [List.map_map]
    have hmap2 : List.map (entry_from_dict now freshId ∘ entry_to_dict)
        b.transactions = b.transactions := by
      simpa [Function.comp] using hmap
    rw [hmap2]
  refine ⟨hblock, ?_, tx_roundtrip⟩
  intro H now freshId b hseal htr
  rw [hblock H now freshId b htr]
  exact hseal.symm

/-- Witness for C9: the sealed block `Bbad` (its single transaction has
timestamp 1 and id `b1`) round-trips intact under `hashK`. -/
theorem claim_C9_witness :
    generate_hash hashK (block_from_dict hashK 7 "f" (block_to_dict Bbad)) =
      Bbad.hash :=
  claim_C9.2.1 hashK 7 "f" Bbad (by decide) (by decide)

/-- Counterexample for C9 as stated: the sealed block `bz` contains the
zero-timestamped transaction `tz`, and reconstruction re-stamps `tz` to
the clock sample, so the recomputed hash of the round trip differs from
`bz.hash`; likewise `tz`'s own round trip changes its signing payload. -/
theorem claim_C9_counterexample :
    ¬ ((∀ (H : BlockHashData → String) (now : Int) (freshId : String) (b : Block),
        b.hash = generate_hash H b →
        generate_hash H (block_from_dict H now freshId (block_to_dict b)) = b.hash) ∧
      (∀ (now : Int) (freshId : String) (t : Transaction),
        t.signature ≠ none →
        signing_data (tx_from_dict now freshId (tx_to_dict t)) = signing_data t)) := by
  intro h
  have := h.1 hashC 7 "f" bz (by decide)
  exact absurd this (by decide)

/-! ## Claim C4: coinbase transactions on the gossip path -/

/-- Claim C4 (amended): a transaction with the COINBASE sentinel sender
arriving through the `transaction` gossip path (`add_transaction`) is NOT
rejected: `verify_transaction` returns true unconditionally for the
sentinel, so the transaction is accepted into the mempool whenever its id
is not already in the chain or the mempool. -/
theorem claim_C4 (verify : String → String → SigningData → Bool)
    (st : NodeState) (t : Transaction)
    (hcb : t.sender_pubkey = "COINBASE")
    (hchain : t.tx_id ∉ chainTxIds st.chain)
    (hpool : t.tx_id ∉ txIds st.mempool) :
    add_transaction verify st t = (true, { st with mempool := st.mempool ++ [t] }) := by
  unfold add_transaction verify_transaction
  simp [hcb, hchain, hpool]

/-- Witness for C4: the wire coinbase `cbGossip` lands in the fresh node's
mempool even under the all-rejecting verifier. -/
theorem claim_C4_witness :
    add_transaction verifyF st0 cbGossip =
      (true, { st0 with mempool := st0.mempool ++ [cbGossip] }) :=
  claim_C4 verifyF st0 cbGossip rfl (by decide) (by decide)

/-- Counterexample for C4 as stated: it is false that a COINBASE-sender
transaction dispatched to `add_transaction` is never added to the mempool. -/
theorem claim_C4_counterexample :
    ¬ (∀ (verify : String → String → SigningData → Bool) (st : NodeState)
        (t : Transaction), t.sender_pubkey = "COINBASE" →
        (add_transaction verify st t).1 = false ∧
          t ∉ (add_transaction verify st t).2.mempool) := by
  intro h
  exact absurd (show cbGossip ∈ (add_transaction verifyF st0 cbGossip).2.mempool by decide)
    (h verifyF st0 cbGossip rfl).2

/-! ## Claim C5: orphaned coinbase transactions at fork resolution -/

theorem txIds_append (l1 l2 : List Transaction) :
    txIds (l1 ++ l2) = txIds l1 ++ txIds l2 :=
  List.map_append Transaction.tx_id l1 l2

theorem lookupLastTx_spec {l : List Transaction} {i : String}
    {t : Transaction} (h : lookupLastTx l i = some t) :
    t ∈ l ∧ t.tx_id = i := by
  unfold lookupLastTx at h
  refine ⟨List.mem_reverse.1 (List.mem_of_find?_eq_some h), ?_⟩
  simpa using List.find?_some h

theorem mem_dedupAcc (y : String) (l : List String) : ∀ seen : List String,
    (y ∈ dedupAcc seen l ↔ (y ∈ l ∧ y ∉ seen)) := by
  induction l with
  | nil => intro seen; simp [dedupAcc]
  | cons x xs ih =>
    intro seen
    unfold dedupAcc
    by_cases hx : x ∈ seen
    · rw [if_pos hx, ih seen]
      constructor
      · rintro ⟨h1, h2⟩
        exact ⟨List.mem_cons_of_mem _ h1, h2⟩
      · rintro ⟨h1, h2⟩
        rcases List.mem_cons.1 h1 with he | hm
        · exact absurd (he ▸ hx) h2
        · exact ⟨hm, h2⟩
    · rw [if_neg hx, List.mem_cons, ih (x :: seen)]
      constructor
      · rintro (rfl | ⟨h1, h2⟩)
        · exact ⟨List.mem_cons_self _ _, hx⟩
        · exact ⟨List.mem_cons_of_mem _ h1,
            fun hc => h2 (List.mem_cons_of_mem _ hc)⟩
      · rintro ⟨h1, h2⟩
        by_cases hy : y = x
        · exact Or.inl hy
        · rcases List.mem_cons.1 h1 with he | hm
          · exact absurd he hy
          · exact Or.inr ⟨hm, fun hc => (List.mem_cons.1 hc).elim hy h2⟩

theorem mem_dedupFirst (y : String) (l : List String) :
    y ∈ dedupFirst l ↔ y ∈ l := by
  unfold dedupFirst
  rw [mem_dedupAcc]
  simp

theorem orphanStep_ids_mono (verify : String → String → SigningData → Bool)
    (c2 : List Block) (oldTxs pool : List Transaction) (j i : String)
    (h : i ∈ txIds pool) :
    i ∈ txIds (orphanStep verify c2 oldTxs pool j) := by
  unfold orphanStep
  cases lookupLastTx oldTxs j with
  | none => exact h
  | some t =>
    dsimp only
    split_ifs <;>
      first
        | exact h
        | (rw [txIds_append]; exact List.mem_append_left _ h)

theorem foldl_orphan_mono (verify : String → String → SigningData → Bool)
    (c2 : List Block) (oldTxs : List Transaction) (L : List String)
    (i : String) : ∀ pool : List Transaction, i ∈ txIds pool →
    i ∈ txIds (L.foldl (orphanStep verify c2 oldTxs) pool) := by
  induction L with
  | nil => intro pool h; exact h
  | cons a as ih =>
    intro pool h
    exact ih _ (orphanStep_ids_mono verify c2 oldTxs pool a i h)

theorem mem_foldl_orphan (verify : String → String → SigningData → Bool)
    (c2 : List Block) (oldTxs : List Transaction) (L : List String)
    (i : String) (t : Transaction)
    (hlook : lookupLastTx oldTxs i = some t)
    (hcb : t.sender_pubkey = "COINBASE") (hi : i ∈ L) :
    ∀ pool : List Transaction,
      i ∈ txIds (L.foldl (orphanStep verify c2 oldTxs) pool) := by
  induction L with
  | nil => cases hi
  | cons a as ih =>
    intro pool
    simp only [List.foldl_cons]
    by_cases ha : a = i
    · subst ha
      have hid : t.tx_id = a := (lookupLastTx_spec hlook).2
      have hstep : a ∈ txIds (orphanStep verify c2 oldTxs pool a) := by
        unfold orphanStep
        rw [hlook]
        dsimp only
        have hv : verify_transaction verify c2 pool t = true := by
          unfold verify_transaction
          rw [if_pos hcb]
        rw [if_neg (by simp [hv])]
        by_cases hmem : t.tx_id ∈ txIds pool
        · rw [if_pos hmem]
          exact hid ▸ hmem
        · rw [if_neg hmem, txIds_append]
          exact List.mem_append_right _ (by simp [txIds, hid])
      exact foldl_orphan_mono verify c2 oldTxs as a _ hstep
    · have hi2 : i ∈ as := by
        rcases List.mem_cons.1 hi with he | hm
        · exact absurd he.symm ha
        · exact hm
      exact ih hi2 (orphanStep verify c2 oldTxs pool a)

/-- Claim C5 (amended): during fork resolution, an orphaned coinbase
transaction (present in the old chain's non-genesis blocks, absent from
the adopted chain's) IS re-injected: `verify_transaction` accepts every
COINBASE-sender transaction, so after a successful `replace_chain` a
transaction with the orphan's id is in the mempool. -/
theorem claim_C5 (H : BlockHashData → String)
    (verify : String → String → SigningData → Bool)
    (st : NodeState) (c : List Block) (t : Transaction)
    (hlook : lookupLastTx ((st.chain.drop 1).flatMap blockTxs) t.tx_id = some t)
    (hcb : t.sender_pubkey = "COINBASE")
    (hnot : t.tx_id ∉ chainTxIds (c.drop 1))
    (hrep : (replace_chain H st.chain c).1 = true) :
    t.tx_id ∈ txIds (handle_chain_response H verify st c).mempool := by
  unfold handle_chain_response
  simp only [hrep, if_true]
  apply mem_foldl_orphan _ _ _ _ _ t hlook hcb
  rw [List.mem_filter]
  refine ⟨?_, by simpa using hnot⟩
  rw [mem_dedupFirst]
  have hmem := (lookupLastTx_spec hlook).1
  exact List.mem_map_of_mem Transaction.tx_id hmem

/-- Witness for C5: the orphaned coinbase `coinTx` of `stC` ends up in the
mempool after adopting the longer transaction-free chain `newC`. -/
theorem claim_C5_witness :
    coinTx.tx_id ∈ txIds (handle_chain_response hashK verifyT stC newC).mempool :=
  claim_C5 hashK verifyT stC newC coinTx (by decide) rfl (by decide) (by decide)

/-- Counterexample for C5 as stated: it is false that an orphaned coinbase
transaction absent from the adopted chain never appears in the mempool
after fork resolution. -/
theorem claim_C5_counterexample :
    ¬ (∀ (H : BlockHashData → String)
        (verify : String → String → SigningData → Bool)
        (st : NodeState) (c : List Block) (t : Transaction),
        t ∈ (st.chain.drop 1).flatMap blockTxs →
        t.sender_pubkey = "COINBASE" →
        t.tx_id ∉ chainTxIds (c.drop 1) →
        (replace_chain H st.chain c).1 = true →
        t ∉ (handle_chain_response H verify st c).mempool) := by
  intro h
  exact absurd
    (show coinTx ∈ (handle_chain_response hashK verifyF stC newC).mempool by decide)
    (h hashK verifyF stC newC coinTx (by decide) rfl (by decide) (by decide))

/-! ## Shape lemmas for the node operations -/

theorem add_transaction_chain (verify : String → String → SigningData → Bool)
    (st : NodeState) (t : Transaction) :
    (add_transaction verify st t).2.chain = st.chain := by
  unfold add_transaction
  split_ifs <;> rfl

theorem add_transaction_self_pk (verify : String → String → SigningData → Bool)
    (st : NodeState) (t : Transaction) :
    (add_transaction verify st t).2.self_pk = st.self_pk := by
  unfold add_transaction
  split_ifs <;> rfl

theorem add_transaction_mempool_cases
    (verify : String → String → SigningData → Bool)
    (st : NodeState) (t : Transaction) :
    (add_transaction verify st t).2.mempool = st.mempool ∨
    ((add_transaction verify st t).2.mempool = st.mempool ++ [t] ∧
      verify_transaction verify st.chain st.mempool t = true ∧
      t.tx_id ∉ chainTxIds st.chain ∧ t.tx_id ∉ txIds st.mempool) := by
  unfold add_transaction
  by_cases h1 : t.tx_id ∈ chainTxIds st.chain
  · rw [if_pos h1]
    exact Or.inl rfl
  · rw [if_neg h1]
    by_cases h2 : verify_transaction verify st.chain st.mempool t = true
    · rw [if_neg (not_not_intro h2)]
      by_cases h3 : t.tx_id ∈ txIds st.mempool
      · rw [if_pos h3]
        exact Or.inl rfl
      · rw [if_neg h3]
        exact Or.inr ⟨rfl, h2, h1, h3⟩
    · rw [if_pos h2]
      exact Or.inl rfl

theorem receive_block_cases (H : BlockHashData → String) (st : NodeState)
    (b : Block) :
    (receive_block H st b).2 = st ∨
    (st.chain ≠ [] ∧ (receive_block H st b).2 =
      { st with chain := st.chain ++ [b],
                mempool := removeAllIds st.mempool (txIds (blockTxs b)) }) := by
  unfold receive_block
  split
  · exact Or.inl rfl
  · exact Or.inl rfl
  · rename_i chain2 hab
    obtain ⟨he, hne, _⟩ := add_block_true hab
    right
    refine ⟨hne, ?_⟩
    rw [he]

theorem filterMap_map_tx (ps : List Transaction) :
    (ps.map TxEntry.tx).filterMap
      (fun e => match e with | .tx t => some t | .raw _ => none) = ps := by
  induction ps with
  | nil => rfl
  | cons p ps ih =>
    simp only [List.map_cons, List.filterMap_cons]
    rw [ih]

theorem blockTxs_reward_picks (r : Transaction) (ps : List Transaction)
    (i tstamp n : Int) (ph hh : String) :
    blockTxs { index := i, timestamp := tstamp,
               transactions := .tx r :: ps.map .tx, prev_hash := ph,
               nonce := n, hash := hh } = r :: ps := by
  unfold blockTxs
  simp only [List.filterMap_cons]
  rw [filterMap_map_tx]

theorem mine_spec {H : BlockHashData → String} {st : NodeState} {now : Int}
    {freshId : String} {nonce : Int} {s2 : NodeState}
    (h : mine H st now freshId nonce = some s2) :
    s2 = st ∨
    ∃ blk, st.chain ≠ [] ∧ s2 = { st with
              chain := st.chain ++ [blk],
              mempool := removeAllIds st.mempool
                (txIds (pick_transactions st.mempool (BLOCK_SIZE_LIMIT - 1))) } ∧
      blockTxs blk =
        create_reward_transaction now freshId st.self_pk MINING_REWARD
            ((pick_transactions st.mempool (BLOCK_SIZE_LIMIT - 1)).map Transaction.fee).sum ::
          pick_transactions st.mempool (BLOCK_SIZE_LIMIT - 1) := by
  unfold mine at h
  split at h
  · injection h with h2
    exact Or.inl h2.symm
  · dsimp only at h
    split at h
    · injection h with h2
      exact Or.inl h2.symm
    · split at h
      · exact Option.noConfusion h
      · rename_i tip htip
        split at h
        · rename_i chain2 hab
          injection h with h2
          obtain ⟨he, hne, _⟩ := add_block_true hab
          right
          rw [← h2, he]
          exact ⟨_, hne, rfl, blockTxs_reward_picks _ _ _ _ _ _ _⟩
        · rename_i hno
          injection h with h2
          exact Or.inl h2.symm

theorem handle_chain_response_spec (H : BlockHashData → String)
    (verify : String → String → SigningData → Bool)
    (st : NodeState) (c : List Block) :
    handle_chain_response H verify st c = st ∨
    (is_valid_chain H c = true ∧ st.chain.length < c.length ∧
      handle_chain_response H verify st c =
        { chain := c,
          mempool :=
            ((dedupFirst (txIds ((st.chain.drop 1).flatMap blockTxs))).filter
                (fun i => ¬ i ∈ chainTxIds (c.drop 1))).foldl
              (orphanStep verify c ((st.chain.drop 1).flatMap blockTxs))
              (st.mempool.filter fun t => ¬ t.tx_id ∈ chainTxIds (c.drop 1)),
          self_pk := st.self_pk }) := by
  unfold handle_chain_response
  by_cases hr : (replace_chain H st.chain c).1 = true
  · obtain ⟨h2, hv, hlen⟩ := replace_chain_true hr
    right
    refine ⟨hv, hlen, ?_⟩
    rw [if_pos hr, h2]
  · left
    rw [if_neg hr]

theorem is_valid_chain_head {H : BlockHashData → String} {c : List Block}
    (h : is_valid_chain H c = true) :
    ∃ g rest, c = g :: rest ∧ g.prev_hash = "0" := by
  cases c with
  | nil => simp [is_valid_chain] at h
  | cons g rest =>
    unfold is_valid_chain at h
    simp only [Bool.and_eq_true, beq_iff_eq] at h
    exact ⟨g, rest, rfl, h.1⟩

/-! ## Claim C6: the head of the chain -/

/-- Claim C6 (amended): in every reachable state the chain is non-empty
and its first block has `prev_hash = "0"`.  This is all that survives of
the canonical-genesis invariant: `is_valid_chain` checks only
`chain[0].prev_hash == "0"`, so a successful `replace_chain` preserves
just this property, not equality with the canonical genesis block (see
the counterexample). -/
theorem claim_C6 (H : BlockHashData → String)
    (verify : String → String → SigningData → Bool) (s : NodeState)
    (h : Reachable H verify s) :
    ∃ g rest, s.chain = g :: rest ∧ g.prev_hash = "0" := by
  induction h with
  | init pk =>
    exact ⟨genesis_block H, [], rfl, rfl⟩
  | addTx s t _ ih =>
    rw [add_transaction_chain]
    exact ih
  | recvBlock s b _ ih =>
    rcases receive_block_cases H s b with he | ⟨_, he⟩
    · rw [he]
      exact ih
    · rw [he]
      obtain ⟨g, rest, hc, hg⟩ := ih
      exact ⟨g, rest ++ [b], by simp [hc], hg⟩
  | mineStep s now freshId nonce s2 _ _ hm ih =>
    rcases mine_spec hm with he | ⟨blk, _, he, _⟩
    · rw [he]
      exact ih
    · rw [he]
      obtain ⟨g, rest, hc, hg⟩ := ih
      exact ⟨g, rest ++ [blk], by simp [hc], hg⟩
  | chainResp s c _ ih =>
    rcases handle_chain_response_spec H verify s c with he | ⟨hv, _, he⟩
    · rw [he]
      exact ih
    · rw [he]
      obtain ⟨g, rest, hc, hg⟩ := is_valid_chain_head hv
      exact ⟨g, rest, by simp [hc], hg⟩

/-- Witness for C6: the freshly constructed node's chain is headed by a
block with `prev_hash = "0"`. -/
theorem claim_C6_witness :
    ∃ g rest,
      ({ chain := [genesis_block hashK], mempool := [], self_pk := "pk" } :
        NodeState).chain = g :: rest ∧ g.prev_hash = "0" :=
  claim_C6 hashK verifyF _ (Reachable.init "pk")

/-- Counterexample for C6 as stated: a node that adopts (via
`handle_chain_response` / `replace_chain`) the longer valid chain
`[gBad, bLink]` reaches a state whose first block is `gBad`
(index 5), not the canonical genesis block. -/
theorem claim_C6_counterexample :
    ¬ (∀ (H : BlockHashData → String)
        (verify : String → String → SigningData → Bool) (s : NodeState),
        Reachable H verify s → s.chain.head? = some (genesis_block H)) := by
  intro h
  have hr : Reachable hashK verifyF
      (handle_chain_response hashK verifyF st0 [gBad, bLink]) :=
    Reachable.chainResp st0 [gBad, bLink] (Reachable.init "pk")
  have := h hashK verifyF _ hr
  exact absurd this (by decide)

/-! ## Claim C7: mempool and chain share no transaction id -/

theorem removeById_sublist (pool : List Transaction) (i : String) :
    List.Sublist (removeById pool i) pool := by
  induction pool with
  | nil => simp [removeById]
  | cons t ts ih =>
    unfold removeById
    by_cases h : t.tx_id = i
    · rw [if_pos h]
      exact List.sublist_cons_self t ts
    · rw [if_neg h]
      exact List.Sublist.cons₂ t ih

theorem removeAllIds_sublist (L : List String) : ∀ pool : List Transaction,
    List.Sublist (removeAllIds pool L) pool := by
  induction L with
  | nil => intro pool; exact List.Sublist.refl pool
  | cons i L ih =>
    intro pool
    unfold removeAllIds at *
    simp only [List.foldl_cons]
    exact (ih (removeById pool i)).trans (removeById_sublist pool i)

theorem not_mem_txIds_removeById {pool : List Transaction} {i : String}
    (hnd : (txIds pool).Nodup) : i ∉ txIds (removeById pool i) := by
  induction pool with
  | nil => simp [removeById, txIds]
  | cons t ts ih =>
    have hnd2 : (t.tx_id :: txIds ts).Nodup := hnd
    have hhead : t.tx_id ∉ txIds ts := (List.nodup_cons.1 hnd2).1
    have htail : (txIds ts).Nodup := (List.nodup_cons.1 hnd2).2
    unfold removeById
    by_cases h : t.tx_id = i
    · rw [if_pos h]
      intro hc
      exact hhead (h ▸ hc)
    · rw [if_neg h]
      intro hc
      have hc2 : i ∈ t.tx_id :: txIds (removeById ts i) := hc
      rcases List.mem_cons.1 hc2 with he | hm
      · exact h he.symm
      · exact ih htail hm

theorem not_mem_txIds_removeAllIds {L : List String} :
    ∀ {pool : List Transaction}, (txIds pool).Nodup →
      ∀ j ∈ L, j ∉ txIds (removeAllIds pool L) := by
  induction L with
  | nil => intro pool _ j hj; cases hj
  | cons i L ih =>
    intro pool hnd j hj
    unfold removeAllIds
    simp only [List.foldl_cons]
    have hnd2 : (txIds (removeById pool i)).Nodup :=
      ((removeById_sublist pool i).map Transaction.tx_id).nodup hnd
    rcases List.mem_cons.1 hj with he | hm
    · subst he
      intro hc
      have hsub : List.Sublist (txIds (List.foldl removeById (removeById pool j) L))
          (txIds (removeById pool j)) :=
        (removeAllIds_sublist L (removeById pool j)).map Transaction.tx_id
      exact not_mem_txIds_removeById hnd (hsub.subset hc)
    · exact ih hnd2 j hm

theorem chainTxIds_drop_subset (c : List Block) {i : String}
    (h : i ∈ chainTxIds (c.drop 1)) : i ∈ chainTxIds c := by
  unfold chainTxIds at *
  rcases List.mem_flatMap.1 h with ⟨b, hb, hib⟩
  exact List.mem_flatMap.2 ⟨b, (List.drop_sublist 1 c).subset hb, hib⟩

theorem chainTxIds_append_one (l : List Block) (b : Block) :
    chainTxIds (l ++ [b]) = chainTxIds l ++ txIds (blockTxs b) := by
  unfold chainTxIds
  rw [List.flatMap_append]
  simp

theorem foldl_orphan_Q (verify : String → String → SigningData → Bool)
    (c2 : List Block) (oldTxs : List Transaction) (newIds : List String)
    (L : List String) (hL : ∀ j ∈ L, j ∉ newIds) :
    ∀ pool : List Transaction,
      ((txIds pool).Nodup ∧ ∀ i ∈ txIds pool, i ∉ newIds) →
      ((txIds (L.foldl (orphanStep verify c2 oldTxs) pool)).Nodup ∧
        ∀ i ∈ txIds (L.foldl (orphanStep verify c2 oldTxs) pool), i ∉ newIds) := by
  induction L with
  | nil => intro pool h; exact h
  | cons j L ihL =>
    intro pool h
    simp only [List.foldl_cons]
    apply ihL (fun k hk => hL k (List.mem_cons_of_mem j hk))
    unfold orphanStep
    cases hl : lookupLastTx oldTxs j with
    | none => exact h
    | some t =>
      dsimp only
      by_cases h1 : verify_transaction verify c2 pool t = true
      · rw [if_neg (not_not_intro h1)]
        by_cases h2 : t.tx_id ∈ txIds pool
        · rw [if_pos h2]
          exact h
        · rw [if_neg h2]
          have hid : t.tx_id = j := (lookupLastTx_spec hl).2
          constructor
          · rw [txIds_append]
            refine List.nodup_append.2 ⟨h.1, by simp [txIds], ?_⟩
            intro a ha hb
            have ha2 : a = t.tx_id := by simpa [txIds] using hb
            exact h2 (ha2 ▸ ha)
          · intro i hi
            rw [txIds_append] at hi
            rcases List.mem_append.1 hi with hm | hm
            · exact h.2 i hm
            · have hi2 : i = t.tx_id := by simpa [txIds] using hm
              rw [hi2, hid]
              exact hL j (List.mem_cons_self j L)
      · rw [if_pos h1]
        exact h

theorem mempool_nodup_and_disjoint (H : BlockHashData → String)
    (verify : String → String → SigningData → Bool) (s : NodeState)
    (h : Reachable H verify s) :
    (txIds s.mempool).Nodup ∧
      ∀ i ∈ txIds s.mempool, i ∉ chainTxIds (s.chain.drop 1) := by
  induction h with
  | init pk => simp [txIds]
  | addTx s t _ ih =>
    obtain ⟨hnd, hdisj⟩ := ih
    rw [add_transaction_chain]
    rcases add_transaction_mempool_cases verify s t with he | ⟨he, _, hchain, hpool⟩
    · rw [he]
      exact ⟨hnd, hdisj⟩
    · rw [he]
      constructor
      · rw [txIds_append]
        refine List.nodup_append.2 ⟨hnd, by simp [txIds], ?_⟩
        intro a ha hb
        have : a = t.tx_id := by simpa [txIds] using hb
        exact hpool (this ▸ ha)
      · intro i hi
        rw [txIds_append] at hi
        rcases List.mem_append.1 hi with hm | hm
        · exact hdisj i hm
        · have : i = t.tx_id := by simpa [txIds] using hm
          subst this
          intro hc
          exact hchain (chainTxIds_drop_subset s.chain hc)
  | recvBlock s b _ ih =>
    obtain ⟨hnd, hdisj⟩ := ih
    rcases receive_block_cases H s b with he | ⟨hne, he⟩
    · rw [he]
      exact ⟨hnd, hdisj⟩
    · rw [he]
      dsimp only
      constructor
      · exact ((removeAllIds_sublist _ _).map Transaction.tx_id).nodup hnd
      · intro i hi
        have hi_pool : i ∈ txIds s.mempool :=
          ((removeAllIds_sublist _ _).map Transaction.tx_id).subset hi
        have hdrop : (s.chain ++ [b]).drop 1 = s.chain.drop 1 ++ [b] :=
          List.drop_append_of_le_length (List.length_pos.2 hne)
        rw [hdrop, chainTxIds_append_one]
        intro hc
        rcases List.mem_append.1 hc with hc1 | hc2
        · exact hdisj i hi_pool hc1
        · exact not_mem_txIds_removeAllIds hnd i hc2 hi
  | mineStep s now freshId nonce s2 _ hfresh hm ih =>
    obtain ⟨hnd, hdisj⟩ := ih
    rcases mine_spec hm with he | ⟨blk, hne, he, hb⟩
    · rw [he]
      exact ⟨hnd, hdisj⟩
    · rw [he]
      dsimp only
      constructor
      · exact ((removeAllIds_sublist _ _).map Transaction.tx_id).nodup hnd
      · intro i hi
        have hi_pool : i ∈ txIds s.mempool :=
          ((removeAllIds_sublist _ _).map Transaction.tx_id).subset hi
        have hdrop : (s.chain ++ [blk]).drop 1 = s.chain.drop 1 ++ [blk] :=
          List.drop_append_of_le_length (List.length_pos.2 hne)
        rw [hdrop, chainTxIds_append_one]
        intro hc
        rcases List.mem_append.1 hc with hc1 | hc2
        · exact hdisj i hi_pool hc1
        · have hids : txIds (blockTxs blk) =
              freshId :: txIds (pick_transactions s.mempool (BLOCK_SIZE_LIMIT - 1)) := by
            rw [hb]
            rfl
          rw [hids] at hc2
          rcases List.mem_cons.1 hc2 with he2 | hm2
          · exact hfresh (he2 ▸ hi_pool)
          · exact not_mem_txIds_removeAllIds hnd i hm2 hi
  | chainResp s c _ ih =>
    obtain ⟨hnd, hdisj⟩ := ih
    rcases handle_chain_response_spec H verify s c with he | ⟨hv, hlen, he⟩
    · rw [he]
      exact ⟨hnd, hdisj⟩
    · rw [he]
      dsimp only
      apply foldl_orphan_Q
      · intro j hj
        have := (List.mem_filter.1 hj).2
        simpa using this
      · constructor
        · exact ((List.filter_sublist _).map Transaction.tx_id).nodup hnd
        · intro i hi
          rcases List.mem_map.1 hi with ⟨t, ht, rfl⟩
          have := (List.mem_filter.1 ht).2
          simpa using this

/-- Claim C7 (amended): after every reachable sequence of mutating
operations, the mempool contains no transaction whose `tx_id` appears in
any NON-GENESIS block (index ≥ 1) of the current chain.  The genesis
position must be excluded: `handle_chain_response` collects the adopted
chain's transaction ids only from `new_chain[1:]`, so a transaction hidden
in the adopted chain's block 0 escapes the purge (see the
counterexample). -/
theorem claim_C7 (H : BlockHashData → String)
    (verify : String → String → SigningData → Bool) (s : NodeState)
    (h : Reachable H verify s) :
    ∀ t ∈ s.mempool, t.tx_id ∉ chainTxIds (s.chain.drop 1) := by
  intro t ht
  exact (mempool_nodup_and_disjoint H verify s h).2 t.tx_id
    (List.mem_map_of_mem Transaction.tx_id ht)

/-- Witness for C7: after the node accepts `tx1` into its mempool, `tx1`'s
id is absent from the non-genesis blocks of its chain. -/
theorem claim_C7_witness :
    tx1.tx_id ∉ chainTxIds ((add_transaction verifyT st0 tx1).2.chain.drop 1) :=
  claim_C7 hashK verifyT _
    (Reachable.addTx st0 tx1 (Reachable.init "pk")) tx1 (by decide)

/-- Counterexample for C7 as stated (over the whole chain, genesis
included): the node accepts `tx1` into its mempool, then adopts the longer
valid chain `[gX, bLink]` whose block 0 hides `tx1`; afterwards `tx1` is
both in the mempool and in a chain block. -/
theorem claim_C7_counterexample :
    ¬ (∀ (H : BlockHashData → String)
        (verify : String → String → SigningData → Bool) (s : NodeState),
        Reachable H verify s →
        ∀ t ∈ s.mempool, t.tx_id ∉ chainTxIds s.chain) := by
  intro h
  have hr : Reachable hashK verifyT
      (handle_chain_response hashK verifyT
        (add_transaction verifyT st0 tx1).2 [gX, bLink]) :=
    Reachable.chainResp _ [gX, bLink]
      (Reachable.addTx st0 tx1 (Reachable.init "pk"))
  exact absurd
    (show tx1.tx_id ∈ chainTxIds
        (handle_chain_response hashK verifyT
          (add_transaction verifyT st0 tx1).2 [gX, bLink]).chain by decide)
    (h hashK verifyT _ hr tx1 (by decide))

/-! ## Claim C3: signature validity of chain transactions -/

theorem verify_transaction_sig
    {verify : String → String → SigningData → Bool} {chain : List Block}
    {pool : List Transaction} {t : Transaction}
    (h : verify_transaction verify chain pool t = true) :
    t.sender_pubkey = "COINBASE" ∨ sig_ok verify t = true := by
  unfold verify_transaction at h
  by_cases hc : t.sender_pubkey = "COINBASE"
  · exact Or.inl hc
  · rw [if_neg hc] at h
    by_cases hs : sig_ok verify t = true
    · exact Or.inr hs
    · rw [if_pos hs] at h
      simp at h

theorem mem_insertByFee {x t : Transaction} {l : List Transaction} :
    x ∈ insertByFee t l ↔ x = t ∨ x ∈ l := by
  induction l with
  | nil => simp [insertByFee]
  | cons y ys ih =>
    unfold insertByFee
    by_cases h : y.fee ≤ t.fee
    · rw [if_pos h]
      simp
    · rw [if_neg h]
      rw [List.mem_cons, ih, List.mem_cons]
      tauto

theorem mem_sortByFeeDesc {x : Transaction} {l : List Transaction} :
    x ∈ sortByFeeDesc l ↔ x ∈ l := by
  induction l with
  | nil => simp [sortByFeeDesc]
  | cons t ts ih =>
    unfold sortByFeeDesc
    rw [mem_insertByFee, ih, List.mem_cons]

theorem mem_pick {x : Transaction} {pool : List Transaction} {n : Nat}
    (h : x ∈ pick_transactions pool n) : x ∈ pool := by
  unfold pick_transactions at h
  exact mem_sortByFeeDesc.1 (List.mem_of_mem_take h)

theorem foldl_orphan_sigs (verify : String → String → SigningData → Bool)
    (c2 : List Block) (oldTxs : List Transaction) (L : List String) :
    ∀ pool : List Transaction, pool_sigs_ok verify pool →
      pool_sigs_ok verify (L.foldl (orphanStep verify c2 oldTxs) pool) := by
  induction L with
  | nil => intro pool h; exact h
  | cons j L ih =>
    intro pool h
    simp only [List.foldl_cons]
    apply ih
    unfold orphanStep
    cases hl : lookupLastTx oldTxs j with
    | none => exact h
    | some t =>
      dsimp only
      by_cases h1 : verify_transaction verify c2 pool t = true
      · rw [if_neg (not_not_intro h1)]
        by_cases h2 : t.tx_id ∈ txIds pool
        · rw [if_pos h2]
          exact h
        · rw [if_neg h2]
          intro x hx hcb
          rcases List.mem_append.1 hx with hm | hm
          · exact h x hm hcb
          · have hx2 : x = t := by simpa using hm
            subst hx2
            rcases verify_transaction_sig h1 with hco | hs
            · exact absurd hco hcb
            · exact hs
      · rw [if_pos h1]
        exact h

theorem sigs_ok_reachable (H : BlockHashData → String)
    (verify : String → String → SigningData → Bool) (s : NodeState)
    (h : ReachableChecked H verify s) :
    chain_sigs_ok verify s.chain ∧ pool_sigs_ok verify s.mempool := by
  induction h with
  | init pk =>
    constructor
    · intro b hb
      have hb2 : b = genesis_block H := by simpa using hb
      subst hb2
      intro t ht
      have hg : blockTxs (genesis_block H) = [] := rfl
      rw [hg] at ht
      cases ht
    · intro t ht
      cases ht
  | addTx s t _ ih =>
    obtain ⟨hchain, hpool⟩ := ih
    rw [add_transaction_chain]
    refine ⟨hchain, ?_⟩
    rcases add_transaction_mempool_cases verify s t with he | ⟨he, hv, _, _⟩
    · rw [he]
      exact hpool
    · rw [he]
      intro x hx hcb
      rcases List.mem_append.1 hx with hm | hm
      · exact hpool x hm hcb
      · have hx2 : x = t := by simpa using hm
        subst hx2
        rcases verify_transaction_sig hv with hco | hs
        · exact absurd hco hcb
        · exact hs
  | recvBlock s b _ hgood ih =>
    obtain ⟨hchain, hpool⟩ := ih
    rcases receive_block_cases H s b with he | ⟨_, he⟩
    · rw [he]
      exact ⟨hchain, hpool⟩
    · rw [he]
      dsimp only
      constructor
      · intro b2 hb2
        rcases List.mem_append.1 hb2 with hm | hm
        · exact hchain b2 hm
        · have hb3 : b2 = b := by simpa using hm
          subst hb3
          exact hgood
      · intro x hx
        exact hpool x ((removeAllIds_sublist _ _).subset hx)
  | mineStep s now freshId nonce s2 _ hfresh hm ih =>
    obtain ⟨hchain, hpool⟩ := ih
    rcases mine_spec hm with he | ⟨blk, hne, he, hb⟩
    · rw [he]
      exact ⟨hchain, hpool⟩
    · rw [he]
      dsimp only
      constructor
      · intro b2 hb2
        rcases List.mem_append.1 hb2 with hm2 | hm2
        · exact hchain b2 hm2
        · have hb3 : b2 = blk := by simpa using hm2
          subst hb3
          intro t ht hcb
          rw [hb] at ht
          rcases List.mem_cons.1 ht with he2 | hm3
          · subst he2
            exact absurd rfl hcb
          · exact hpool t (mem_pick hm3) hcb
      · intro x hx
        exact hpool x ((removeAllIds_sublist _ _).subset hx)
  | chainResp s c _ hgood ih =>
    obtain ⟨hchain, hpool⟩ := ih
    rcases handle_chain_response_spec H verify s c with he | ⟨hv, hlen, he⟩
    · rw [he]
      exact ⟨hchain, hpool⟩
    · rw [he]
      dsimp only
      refine ⟨hgood, ?_⟩
      apply foldl_orphan_sigs
      intro x hx
      exact hpool x ((List.filter_sublist _).subset hx)

/-- Claim C3 (amended): provided every block ingested from the network
(`receive_block`) and every chain adopted at fork resolution
(`handle_chain_response`) carries only signature-valid non-coinbase
transactions, every reachable state's chain contains only non-coinbase
transactions whose ECDSA signatures verify against their signing payload
and sender key.  The proviso is necessary: the code checks no signatures on
those two ingest paths (see the counterexample); only the mempool path
(`add_transaction`) and hence mining contribute verified transactions by
themselves. -/
theorem claim_C3 (H : BlockHashData → String)
    (verify : String → String → SigningData → Bool) (s : NodeState)
    (h : ReachableChecked H verify s) :
    ∀ b ∈ s.chain, ∀ t ∈ blockTxs b,
      t.sender_pubkey ≠ "COINBASE" → sig_ok verify t = true :=
  fun b hb => (sigs_ok_reachable H verify s h).1 b hb

/-- Witness for C3: a node that (under the all-accepting verifier) ingests
the signature-clean block `Bbad` satisfies the invariant at its
transaction `badTx`. -/
theorem claim_C3_witness : sig_ok verifyT badTx = true :=
  claim_C3 hashK verifyT _
    (ReachableChecked.recvBlock st0 Bbad (ReachableChecked.init "pk")
      (by unfold block_sigs_ok; decide))
    Bbad (by decide) badTx (by decide) (by decide)

/-- Counterexample for C3 as stated: `add_block` checks only linkage,
difficulty and hash recomputation, so a node reaches (via `receive_block`
on the sealed, linked block `Bbad`) a state whose chain contains the
non-coinbase transaction `badTx`, whose signature no verifier accepts. -/
theorem claim_C3_counterexample :
    ¬ (∀ (H : BlockHashData → String)
        (verify : String → String → SigningData → Bool) (s : NodeState),
        Reachable H verify s →
        ∀ b ∈ s.chain, ∀ t ∈ blockTxs b,
          t.sender_pubkey ≠ "COINBASE" → sig_ok verify t = true) := by
  intro h
  have hr : Reachable hashK verifyF (receive_block hashK st0 Bbad).2 :=
    Reachable.recvBlock st0 Bbad (Reachable.init "pk")
  have hbad := h hashK verifyF _ hr Bbad (by decide) badTx (by decide) (by decide)
  exact absurd hbad (by decide)
